import Mathlib

/-!
# Verification of the CAPlayground support-bot core

A shallow embedding of the repository's core components, translated from the
JavaScript source:

* `ServerIndexer` (incremental crawler, keyword classifier, index store,
  relative-time formatting) from the training indexer module;
* `GeminiService`'s per-user conversation memory (`getHistory`,
  `addToHistory`, `clearHistory`).

JavaScript objects/`Map`s are modelled as association lists, machine integers
as `Nat` (timestamps are nonneg milliseconds), fallible operations via
`Option`/explicit error flags.  The theorems at the end of the file settle
the frozen claims about the specification.
-/

set_option maxRecDepth 10000

namespace CAPSupport

/-! ## Association lists (JS plain objects / `Map`s keyed by strings) -/

/-- Lookup of the value stored under key `k` (JS `obj[k]` / `map.get(k)`). -/
def lookupA {α : Type} : List (String × α) → String → Option α
  | [], _ => none
  | p :: t, k => if p.fst = k then some p.snd else lookupA t k

/-- Update-or-append of key `k` (JS `obj[k] = v` / `map.set(k, v)`):
the first entry with key `k` is replaced in place, otherwise the pair is
appended at the end. -/
def setA {α : Type} : List (String × α) → String → α → List (String × α)
  | [], k, v => [(k, v)]
  | p :: t, k, v => if p.fst = k then (k, v) :: t else p :: setA t k v

/-- Removal of key `k` (JS `map.delete(k)`). -/
def delA {α : Type} (m : List (String × α)) (k : String) : List (String × α) :=
  m.filter (fun p => p.fst ≠ k)

theorem lookupA_cons {α : Type} (p : String × α) (t : List (String × α)) (k : String) :
    lookupA (p :: t) k = if p.fst = k then some p.snd else lookupA t k := rfl

theorem setA_cons_hit {α : Type} {p : String × α} {t : List (String × α)} {k : String}
    (v : α) (hp : p.fst = k) : setA (p :: t) k v = (k, v) :: t := by
  simp [setA, hp]

theorem setA_cons_miss {α : Type} {p : String × α} {t : List (String × α)} {k : String}
    (v : α) (hp : ¬ p.fst = k) : setA (p :: t) k v = p :: setA t k v := by
  simp [setA, hp]

theorem lookupA_setA_self {α : Type} (m : List (String × α)) (k : String) (v : α) :
    lookupA (setA m k v) k = some v := by
  induction m with
  | nil => simp [setA, lookupA]
  | cons p t ih =>
      by_cases hp : p.fst = k
      · rw [setA_cons_hit v hp, lookupA_cons]
        simp
      · rw [setA_cons_miss v hp, lookupA_cons, if_neg hp, ih]

theorem lookupA_setA_ne {α : Type} (m : List (String × α)) (k k' : String) (v : α)
    (h : k ≠ k') : lookupA (setA m k v) k' = lookupA m k' := by
  induction m with
  | nil =>
      show lookupA [(k, v)] k' = none
      simp [lookupA, h]
  | cons p t ih =>
      by_cases hp : p.fst = k
      · have h3 : ¬ p.fst = k' := by rw [hp]; exact h
        rw [setA_cons_hit v hp, lookupA_cons, lookupA_cons, if_neg h3]
        show (if k = k' then some v else lookupA t k') = lookupA t k'
        rw [if_neg h]
      · rw [setA_cons_miss v hp, lookupA_cons, lookupA_cons, ih]

theorem delA_cons_hit {α : Type} {p : String × α} {t : List (String × α)} {k : String}
    (hp : p.fst = k) : delA (p :: t) k = delA t k := by
  simp [delA, List.filter_cons, hp]

theorem delA_cons_miss {α : Type} {p : String × α} {t : List (String × α)} {k : String}
    (hp : ¬ p.fst = k) : delA (p :: t) k = p :: delA t k := by
  simp [delA, List.filter_cons, hp]

theorem lookupA_delA_ne {α : Type} (m : List (String × α)) (k k' : String)
    (h : k ≠ k') : lookupA (delA m k) k' = lookupA m k' := by
  induction m with
  | nil => rfl
  | cons p t ih =>
      by_cases hp : p.fst = k
      · have h3 : ¬ p.fst = k' := by rw [hp]; exact h
        rw [delA_cons_hit hp, ih, lookupA_cons, if_neg h3]
      · rw [delA_cons_miss hp, lookupA_cons, lookupA_cons, ih]

theorem setA_lookup_eq {α : Type} (m : List (String × α)) (k : String) (v : α)
    (h : lookupA m k = some v) : setA m k v = m := by
  induction m with
  | nil => simp [lookupA] at h
  | cons p t ih =>
      by_cases hp : p.fst = k
      · rw [lookupA_cons, if_pos hp] at h
        injection h with h
        have hp2 : p = (k, v) := by
          obtain ⟨a, b⟩ := p
          simp only at hp h
          rw [hp, h]
        rw [setA_cons_hit v hp, ← hp2]
      · rw [lookupA_cons, if_neg hp] at h
        rw [setA_cons_miss v hp, ih h]

/-! ## Data model (translated from the indexer source) -/

/-- Message author as stored by `indexChannel` (`msg.author`). -/
structure Author where
  id : String
  username : String
  bot : Bool
deriving DecidableEq

/-- Reaction summary as stored by `indexChannel` (`msg.reactions`). -/
structure Reaction where
  emoji : String
  count : Nat
deriving DecidableEq

/-- A message record as pushed by `indexChannel` (the `date` string field is a
pure function of `timestamp` and is omitted). -/
structure Message where
  id : String
  content : String
  author : Author
  timestamp : Nat
  hasAttachments : Bool
  reactions : List Reaction
deriving DecidableEq

/-- Per-channel index entry (`this.indexData.channels[channel.id]`). -/
structure ChannelIndex where
  name : String
  messageCount : Nat
  latestTimestamp : Nat
  messages : List Message
deriving DecidableEq

/-- Classified record pushed by `analyzeMessages` onto `bugs` / `features` /
`solutions`. -/
structure ClassifiedRecord where
  channel : String
  message : String
  author : String
  timestamp : Nat
  id : String
deriving DecidableEq

/-- The `this.indexData` snapshot.  `lastIndexed` (an ISO date string in the
source) is modelled as the corresponding timestamp. -/
structure IndexData where
  channels : List (String × ChannelIndex)
  bugs : List ClassifiedRecord
  features : List ClassifiedRecord
  commonIssues : List ClassifiedRecord
  solutions : List ClassifiedRecord
  lastIndexed : Option Nat
deriving DecidableEq

/-- The snapshot created by the `ServerIndexer` constructor. -/
def emptyIndexData : IndexData :=
  { channels := [], bugs := [], features := [], commonIssues := [],
    solutions := [], lastIndexed := none }

/-! ## Stable descending sort by timestamp

JS `messages.sort((a, b) => b.timestamp - a.timestamp)` is a stable sort with
weakly descending timestamps; stable insertion sort computes the identical
result. -/

/-- Insert `m` before the first element whose timestamp is not greater than
`m`'s (stable for equal timestamps). -/
def insertByTs (m : Message) : List Message → List Message
  | [] => [m]
  | x :: xs => if m.timestamp < x.timestamp then x :: insertByTs m xs else m :: x :: xs

/-- Stable sort, descending by timestamp. -/
def sortByTsDesc (l : List Message) : List Message := l.foldr insertByTs []

/-- Weakly descending by timestamp (newest first). -/
def TsSortedDesc (l : List Message) : Prop :=
  l.Pairwise (fun a b => b.timestamp ≤ a.timestamp)

instance (l : List Message) : Decidable (TsSortedDesc l) :=
  inferInstanceAs
    (Decidable (l.Pairwise (fun a b : Message => b.timestamp ≤ a.timestamp)))

/-- `Math.max(...messages.map(m => m.timestamp))`, with `0` for the empty
list as in the source. -/
def maxTimestamp (l : List Message) : Nat :=
  l.foldl (fun acc m => max acc m.timestamp) 0

/-! ## Keyword classifier (`analyzeMessages`) -/

def bugKeywords : List String :=
  ["bug", "error", "crash", "broken", "issue", "problem", "not working"]

def featureKeywords : List String :=
  ["feature", "request", "suggestion", "could you", "would be nice", "add"]

def solutionKeywords : List String :=
  ["fixed", "solved", "working now", "thanks", "resolved"]

/-- JS `haystack.includes(needle)`: substring test. -/
def containsStr (haystack needle : String) : Bool :=
  decide (needle.data <:+: haystack.data)

/-- JS `content.toLowerCase()` (ASCII case mapping), computed on the
underlying character list. -/
def toLowerStr (s : String) : String := ⟨s.data.map Char.toLower⟩

/-- `keywords.some(keyword => content.includes(keyword))` where `content` is
the lower-cased message text. -/
def matchesAny (keywords : List String) (content : String) : Bool :=
  keywords.any (fun k => containsStr content k)

/-- The record pushed by `analyzeMessages` for a matching message. -/
def mkRecord (channelName : String) (m : Message) : ClassifiedRecord :=
  { channel := channelName, message := m.content, author := m.author.username,
    timestamp := m.timestamp, id := m.id }

/-- Records appended to one category collection by `analyzeMessages`:
every message whose lower-cased content contains one of the keywords,
in message order. -/
def classified (keywords : List String) (channelName : String)
    (msgs : List Message) : List ClassifiedRecord :=
  (msgs.filter (fun m => matchesAny keywords (toLowerStr m.content))).map
    (mkRecord channelName)

/-! ## The crawler (`indexChannel`) -/

/-- The gateway's paginated fetch
(`channel.messages.fetch({ limit, before })`): `upstream` is the channel's
full message list, newest first; with a `before` cursor the page consists of
the messages strictly after (older than) the message with that id. -/
def fetchPage (upstream : List Message) (before : Option String) (limit : Nat) :
    List Message :=
  match before with
  | none => upstream.take limit
  | some bid => (((upstream.dropWhile (fun m => m.id ≠ bid)).drop 1).take limit)

/-- A channel as presented to `indexChannel`: its identifier, display name,
current upstream message list (newest first) and an optional page index at
which the gateway's fetch call rejects (modelling the `catch` path of
`indexChannel`; `none` means every fetch succeeds). -/
structure ChannelSrc where
  id : String
  name : String
  upstream : List Message
  failAt : Option Nat
deriving DecidableEq

/-- The paging `while` loop of `indexChannel`.  `acc` is the `messages`
array (which starts as the previously stored list), `fetchedCount` and
`lastMessageId` as in the source, `pageIdx` counts fetch calls for failure
injection.  Returns the array contents together with an error flag
(`true` when a fetch call threw; the partially pushed `acc` is retained,
because the JS array is mutated in place).

The `fuel` argument only forces structural termination: each iteration
increases `fetchedCount` by at least 1 and the loop runs only while
`fetchedCount < maxMessages`, so with `fuel > maxMessages - fetchedCount`
the `0` case is unreachable. -/
def fetchLoop (upstream : List Message) (failAt : Option Nat)
    (watermark maxMessages : Nat) :
    Nat → List Message → Option String → Nat → Nat → List Message × Bool
  | 0, acc, _, _, _ => (acc, false)
  | fuel + 1, acc, lastMessageId, fetchedCount, pageIdx =>
    if fetchedCount < maxMessages then
      if failAt = some pageIdx then (acc, true)
      else
        let batch := fetchPage upstream lastMessageId 100
        if hb : batch = [] then (acc, false)
        else
          let newMsgs := batch.filter (fun m => watermark < m.timestamp)
          if batch.any (fun m => m.timestamp ≤ watermark) then
            (acc ++ newMsgs, false)
          else
            fetchLoop upstream failAt watermark maxMessages fuel (acc ++ newMsgs)
              (some (batch.getLast hb).id) (fetchedCount + batch.length)
              (pageIdx + 1)
    else (acc, false)

/-- `indexChannel`, as a pure state transformer.  On the success path the
merged list is sorted descending, truncated to 500 and stored together with
the recomputed watermark, and `analyzeMessages` appends classified records
for every stored message.  On the error path (`catch`) the only state change
is the in-place mutation of the aliased `messages` array of an existing
entry: the partially fetched messages stay appended while `name`,
`messageCount` and `latestTimestamp` keep their old values. -/
def indexChannel (st : IndexData) (ch : ChannelSrc) : IndexData :=
  let existing := lookupA st.channels ch.id
  let watermark := match existing with | some c => c.latestTimestamp | none => 0
  let stored := match existing with | some c => c.messages | none => []
  let res := fetchLoop ch.upstream ch.failAt watermark 500 501 stored none 0 0
  if res.snd then
    match existing with
    | some c =>
        { st with channels := setA st.channels ch.id { c with messages := res.fst } }
    | none => st
  else
    let messages := (sortByTsDesc res.fst).take 500
    let latestTimestamp := maxTimestamp messages
    let st1 := { st with
      channels := setA st.channels ch.id
        { name := ch.name, messageCount := messages.length,
          latestTimestamp := latestTimestamp, messages := messages } }
    { st1 with
      bugs := st1.bugs ++ classified bugKeywords ch.name messages,
      features := st1.features ++ classified featureKeywords ch.name messages,
      solutions := st1.solutions ++ classified solutionKeywords ch.name messages }

/-- `indexServer` restricted to its per-channel loop and the final
`lastIndexed` stamp: channels are processed one at a time, each through
`indexChannel`. -/
def indexServer (st : IndexData) (chs : List ChannelSrc) (now : Nat) : IndexData :=
  let st1 := chs.foldl indexChannel st
  { st1 with lastIndexed := some now }

/-! ## Persistent index store (`loadIndexData`) -/

/-- `loadIndexData`: `raw` is the outcome of reading and parsing the
persisted file (`none` for a missing file or malformed content, i.e. the
`catch` path).  On failure the method returns `null` and leaves
`this.indexData` untouched; on success it installs and returns the parsed
snapshot. -/
def loadIndexData (st : IndexData) (raw : Option IndexData) :
    Option IndexData × IndexData :=
  match raw with
  | some d => (some d, d)
  | none => (none, st)

/-! ## Relative-time formatting (`getRelativeTime`) -/

/-- `getRelativeTime(timestamp)` with `Date.now()` passed explicitly. -/
def getRelativeTime (now timestamp : Nat) : String :=
  let diff := now - timestamp
  let seconds := diff / 1000
  let minutes := seconds / 60
  let hours := minutes / 60
  let days := hours / 24
  if days > 0 then toString days ++ " day" ++ (if days > 1 then "s" else "") ++ " ago"
  else if hours > 0 then toString hours ++ " hour" ++ (if hours > 1 then "s" else "") ++ " ago"
  else if minutes > 0 then toString minutes ++ " minute" ++ (if minutes > 1 then "s" else "") ++ " ago"
  else toString seconds ++ " second" ++ (if seconds > 1 then "s" else "") ++ " ago"

/-- One unit phrase with English singular/plural (suffix `s` exactly when the
count differs from 1). -/
def unitPhrase (n : Nat) (unit : String) : String :=
  toString n ++ unit ++ (if n = 1 then "" else "s") ++ " ago"

/-- Modelled from the spec: "express using the largest non-zero unit among
days, hours, minutes, seconds, with correct singular/plural suffix".  Used
only as the comparison point for the refinement claim about
`getRelativeTime`. -/
def relTimeSpec (elapsedMs : Nat) : String :=
  let seconds := elapsedMs / 1000
  let minutes := seconds / 60
  let hours := minutes / 60
  let days := hours / 24
  if days > 0 then unitPhrase days " day"
  else if hours > 0 then unitPhrase hours " hour"
  else if minutes > 0 then unitPhrase minutes " minute"
  else unitPhrase seconds " second"

/-! ## Conversation memory (`GeminiService`) -/

/-- One turn as pushed by `addToHistory` (`{ role, parts: [{ text }],
timestamp }`; the single-element `parts` array is flattened to `text`). -/
structure ConversationTurn where
  role : String
  text : String
  timestamp : Nat
deriving DecidableEq

/-- `this.conversationHistory`: a `Map` from user id to that user's turns,
oldest first. -/
def ConvHistory : Type := List (String × List ConversationTurn)

/-- `this.historyTTLms = 30 * 60 * 1000`. -/
def historyTTLms : Nat := 30 * 60 * 1000

/-- The TTL filter `(now - h.timestamp) <= ttl` used by both `getHistory`
and `addToHistory`.  (Every stored turn carries a numeric timestamp, so the
`typeof` guard in the source is vacuous; JS negative differences for
future timestamps behave like truncated `Nat` subtraction: the turn is
kept.) -/
def freshTurn (now : Nat) (h : ConversationTurn) : Bool :=
  now - h.timestamp ≤ historyTTLms

/-- `getHistory(userId)`: returns the pruned `(role, text)` pairs and the
updated map (the pruned list is persisted only when pruning removed
something). -/
def getHistory (m : ConvHistory) (now : Nat) (userId : String) :
    List (String × String) × ConvHistory :=
  let history := (lookupA m userId).getD []
  let filtered := history.filter (freshTurn now)
  let m1 := if filtered.length ≠ history.length then setA m userId filtered else m
  (filtered.map (fun h => (h.role, h.text)), m1)

/-- `addToHistory(userId, role, content)`. -/
def addToHistory (m : ConvHistory) (now : Nat) (userId role content : String) :
    ConvHistory :=
  let m0 := if (lookupA m userId).isSome then m else setA m userId []
  let history := (lookupA m0 userId).getD [] ++ [⟨role, content, now⟩]
  let pruned := history.filter (freshTurn now)
  let capped := if pruned.length > 20 then pruned.drop (pruned.length - 20) else pruned
  setA m0 userId capped

/-- `clearHistory(userId)`. -/
def clearHistory (m : ConvHistory) (userId : String) : ConvHistory :=
  delA m userId

/-- A per-user operation of the conversation-memory manager. -/
inductive UserOp where
  | add (role text : String)
  | get
  | clear
deriving DecidableEq

/-- Apply one operation for user `uid` at time `now` (the read's state
update is its lazy pruning). -/
def applyOp (m : ConvHistory) (now : Nat) (uid : String) : UserOp → ConvHistory
  | .add r x => addToHistory m now uid r x
  | .get => (getHistory m now uid).snd
  | .clear => clearHistory m uid

/-- Apply a timed sequence of operations for user `uid`. -/
def applyOps (m : ConvHistory) (uid : String) (ops : List (Nat × UserOp)) :
    ConvHistory :=
  ops.foldl (fun acc p => applyOp acc p.fst uid p.snd) m

/-! ## Lemmas about the stable sort -/

theorem insertByTs_perm (m : Message) (l : List Message) :
    List.Perm (insertByTs m l) (m :: l) := by
  induction l with
  | nil => exact List.Perm.refl _
  | cons x xs ih =>
      by_cases h : m.timestamp < x.timestamp
      · rw [insertByTs, if_pos h]
        exact (ih.cons x).trans (List.Perm.swap m x xs)
      · rw [insertByTs, if_neg h]

theorem sortByTsDesc_perm (l : List Message) : List.Perm (sortByTsDesc l) l := by
  induction l with
  | nil => exact List.Perm.refl _
  | cons a l ih => exact (insertByTs_perm a (sortByTsDesc l)).trans (ih.cons a)

theorem insertByTs_of_ge (m : Message) (l : List Message)
    (h : ∀ x ∈ l, x.timestamp ≤ m.timestamp) : insertByTs m l = m :: l := by
  cases l with
  | nil => rfl
  | cons x xs =>
      rw [insertByTs, if_neg]
      exact Nat.not_lt.mpr (h x (List.mem_cons_self x xs))

theorem sortByTsDesc_eq_self {l : List Message} (h : TsSortedDesc l) :
    sortByTsDesc l = l := by
  induction l with
  | nil => rfl
  | cons a l ih =>
      rw [TsSortedDesc, List.pairwise_cons] at h
      show insertByTs a (sortByTsDesc l) = a :: l
      rw [ih h.2]
      exact insertByTs_of_ge a l h.1

/-! ## Lemmas about the paging loop -/

/-- The cursor kept by the loop: the id of the last message paged through. -/
def lastIdOf (l : List Message) : Option String := l.getLast?.map Message.id

theorem lastIdOf_append_ne_nil (done batch : List Message) (hb : batch ≠ []) :
    lastIdOf (done ++ batch) = lastIdOf batch := by
  rw [lastIdOf, lastIdOf, List.getLast?_append_of_ne_nil done hb]

/-- With globally unique message ids, fetching `before` the last message
paged through returns exactly the next chunk of the channel. -/
theorem fetchPage_cursor (done rest : List Message)
    (hnd : ((done ++ rest).map Message.id).Nodup) :
    fetchPage (done ++ rest) (lastIdOf done) 100 = rest.take 100 := by
  induction done with
  | nil => rfl
  | cons d ds ih =>
      rw [List.cons_append, List.map_cons, List.nodup_cons] at hnd
      by_cases hds : ds = []
      · subst hds
        show ((((d :: rest).dropWhile (fun m => m.id ≠ d.id)).drop 1).take 100)
          = rest.take 100
        rw [List.dropWhile_cons]
        simp
      · obtain ⟨x, hx⟩ : ∃ x, ds.getLast? = some x := by
          cases h : ds.getLast? with
          | none => exact absurd (List.getLast?_eq_none_iff.mp h) hds
          | some x => exact ⟨x, rfl⟩
        have hxm : x ∈ ds := by
          obtain ⟨h0, hxe⟩ := List.mem_getLast?_eq_getLast (x := x) hx
          rw [hxe]
          exact List.getLast_mem h0
        have hlds : lastIdOf ds = some x.id := by rw [lastIdOf, hx]; rfl
        have hlast : lastIdOf (d :: ds) = some x.id := by
          cases ds with
          | nil => exact absurd rfl hds
          | cons e es => rw [lastIdOf, List.getLast?_cons_cons, ← lastIdOf, hlds]
        rw [List.cons_append, hlast]
        have hdx : ¬ d.id = x.id := by
          intro heq
          exact hnd.1 (by
            rw [heq]
            exact List.mem_map_of_mem Message.id (List.mem_append_left rest hxm))
        show ((((d :: (ds ++ rest)).dropWhile (fun m => m.id ≠ x.id)).drop 1).take 100)
          = rest.take 100
        rw [List.dropWhile_cons, if_pos (by simpa using hdx)]
        have hih := ih hnd.2
        rw [hlds] at hih
        exact hih

/-- On a weakly descending list, keeping the fresh messages (`filter`) is the
same as truncating at the first stale one (`takeWhile`). -/
theorem filter_fresh_eq_takeWhile {w : Nat} {l : List Message} (h : TsSortedDesc l) :
    l.filter (fun m => w < m.timestamp) = l.takeWhile (fun m => w < m.timestamp) := by
  induction l with
  | nil => rfl
  | cons x xs ih =>
      rw [TsSortedDesc, List.pairwise_cons] at h
      by_cases hx : w < x.timestamp
      · rw [List.filter_cons, List.takeWhile_cons, decide_eq_true hx, if_pos rfl,
          if_pos rfl, ih h.2]
      · rw [List.filter_cons, List.takeWhile_cons, decide_eq_false hx,
          if_neg Bool.false_ne_true, if_neg Bool.false_ne_true]
        rw [List.filter_eq_nil_iff]
        intro a ha
        simp only [decide_eq_true_eq]
        intro hw
        exact hx (lt_of_lt_of_le hw (h.1 a ha))

/-- If some element of `l.take n` falsifies `p`, then `takeWhile p` already
terminates inside the first `n` elements. -/
theorem takeWhile_take_eq_of_stale {p : Message → Bool} :
    ∀ (n : Nat) (l : List Message), (∃ m ∈ l.take n, ¬ p m) →
      (l.take n).takeWhile p = l.takeWhile p
  | 0, l, h => by simp at h
  | _ + 1, [], h => by simp at h
  | n + 1, x :: xs, h => by
      rw [List.take_succ_cons, List.takeWhile_cons, List.takeWhile_cons]
      by_cases hx : p x
      · rw [if_pos hx, if_pos hx]
        obtain ⟨m, hm, hmp⟩ := h
        rw [List.take_succ_cons] at hm
        rcases List.mem_cons.mp hm with rfl | hm
        · exact absurd hx hmp
        · rw [takeWhile_take_eq_of_stale n xs ⟨m, hm, hmp⟩]
      · rw [if_neg hx, if_neg hx]

/-- Unfolding of the paging loop for positive fuel (zeta-expanded form). -/
theorem fetchLoop_succ (u : List Message) (f : Option Nat) (w mx fuel : Nat)
    (acc : List Message) (lid : Option String) (fc pi : Nat) :
    fetchLoop u f w mx (fuel + 1) acc lid fc pi =
      if fc < mx then
        if f = some pi then (acc, true)
        else if hb : fetchPage u lid 100 = [] then (acc, false)
        else if (fetchPage u lid 100).any (fun m => m.timestamp ≤ w) then
          (acc ++ (fetchPage u lid 100).filter (fun m => w < m.timestamp), false)
        else
          fetchLoop u f w mx fuel
            (acc ++ (fetchPage u lid 100).filter (fun m => w < m.timestamp))
            (some ((fetchPage u lid 100).getLast hb).id)
            (fc + (fetchPage u lid 100).length) (pi + 1)
      else (acc, false) := rfl

/-- When every upstream message is at or below the watermark, the first page
already stops the loop and nothing is appended. -/
theorem fetchLoop_no_new (upstream : List Message) (w fuel : Nat)
    (acc : List Message)
    (hall : ∀ m ∈ upstream, m.timestamp ≤ w) :
    fetchLoop upstream none w 500 (fuel + 1) acc none 0 0 = (acc, false) := by
  rw [fetchLoop_succ, if_pos (by omega), if_neg (by simp)]
  rcases upstream with _ | ⟨u, us⟩
  · rfl
  · have hb : ¬ (fetchPage (u :: us) none 100 = []) := by
      show ¬ ((u :: us).take 100 = [])
      rw [List.take_eq_nil_iff]
      simp
    have hfil : (fetchPage (u :: us) none 100).filter (fun m => w < m.timestamp) = [] := by
      rw [List.filter_eq_nil_iff]
      intro a ha
      simp only [decide_eq_true_eq]
      have ha2 : a ∈ (u :: us).take 100 := ha
      exact Nat.not_lt.mpr (hall a (List.mem_of_mem_take ha2))
    have hany : ((fetchPage (u :: us) none 100).any (fun m => m.timestamp ≤ w)) = true := by
      rw [List.any_eq_true]
      refine ⟨u, ?_, decide_eq_true (hall u (List.mem_cons_self u us))⟩
      show u ∈ (u :: us).take 100
      have h100 : (u :: us).take 100 = u :: us.take 99 := rfl
      rw [h100]
      exact List.mem_cons_self u (us.take 99)
    rw [dif_neg hb, if_pos hany, hfil, List.append_nil]

/-- Main characterisation of the error-free paging loop: having already paged
through the fresh prefix `done` of the channel (the accumulator holds
`acc0 ++ done`), the loop appends exactly the remaining messages above the
watermark, truncated at the cap, and reports no error. -/
theorem fetchLoop_go (upstream : List Message) (w : Nat)
    (hs : TsSortedDesc upstream) (hnd : (upstream.map Message.id).Nodup) :
    ∀ (fuel : Nat) (done rest acc0 : List Message) (pageIdx : Nat),
      upstream = done ++ rest →
      (∀ m ∈ done, w < m.timestamp) →
      (rest = [] ∨ 100 ∣ done.length) →
      500 - done.length < fuel →
      fetchLoop upstream none w 500 fuel (acc0 ++ done) (lastIdOf done)
          done.length pageIdx
        = (acc0 ++ done ++
            (rest.takeWhile (fun m => w < m.timestamp)).take (500 - done.length),
           false) := by
  intro fuel
  induction fuel with
  | zero =>
      intro done rest acc0 pi hsplit hfresh hdvd hfuel
      exact absurd hfuel (Nat.not_lt_zero _)
  | succ fuel ih =>
      intro done rest acc0 pi hsplit hfresh hdvd hfuel
      by_cases hcap : done.length < 500
      · rw [fetchLoop_succ, if_pos hcap, if_neg (by simp)]
        have hbatch : fetchPage upstream (lastIdOf done) 100 = rest.take 100 := by
          rw [hsplit]
          exact fetchPage_cursor done rest (by rw [← hsplit]; exact hnd)
        simp only [hbatch]
        by_cases hrne : rest = []
        · subst hrne
          simp
        · have hbne : ¬ (rest.take 100 = []) := by
            rw [List.take_eq_nil_iff]
            simp [hrne]
          have hdvd100 : 100 ∣ done.length := hdvd.resolve_left hrne
          have hklarge : 100 ≤ 500 - done.length := by
            obtain ⟨q, hq⟩ := hdvd100
            omega
          have hrs : TsSortedDesc rest :=
            List.Pairwise.sublist (by rw [hsplit]; exact List.sublist_append_right done rest) hs
          have hbs : TsSortedDesc (rest.take 100) :=
            List.Pairwise.sublist (List.take_sublist 100 rest) hrs
          rw [dif_neg hbne]
          by_cases hstop : ((rest.take 100).any (fun m => m.timestamp ≤ w)) = true
          · rw [if_pos hstop]
            obtain ⟨x, hxm, hxw⟩ := List.any_eq_true.mp hstop
            simp only [decide_eq_true_eq] at hxw
            have hstale : ∃ m ∈ rest.take 100, ¬ ((fun m => decide (w < m.timestamp)) m) := by
              refine ⟨x, hxm, ?_⟩
              simp only [decide_eq_true_eq]
              exact Nat.not_lt.mpr hxw
            have h1 := filter_fresh_eq_takeWhile (w := w) hbs
            have h2 := takeWhile_take_eq_of_stale (p := fun m => decide (w < m.timestamp))
              100 rest hstale
            have hlen : (rest.takeWhile (fun m => w < m.timestamp)).length ≤ 500 - done.length := by
              have e1 : (rest.takeWhile (fun m => w < m.timestamp)).length
                  ≤ (rest.take 100).length := by
                rw [← h2]
                exact (List.takeWhile_sublist _).length_le
              have e2 : (rest.take 100).length ≤ 100 := List.length_take_le 100 rest
              omega
            rw [h1, h2, List.take_of_length_le hlen]
          · rw [if_neg hstop]
            have hallf : ∀ m ∈ rest.take 100, w < m.timestamp := by
              intro m hm
              by_contra hle
              exact hstop (List.any_eq_true.mpr
                ⟨m, hm, decide_eq_true (Nat.not_lt.mp hle)⟩)
            have hfil : (rest.take 100).filter (fun m => w < m.timestamp) = rest.take 100 :=
              List.filter_eq_self.mpr (fun a ha => decide_eq_true (hallf a ha))
            have hlid : some (((rest.take 100).getLast hbne).id)
                = lastIdOf (done ++ rest.take 100) := by
              rw [lastIdOf_append_ne_nil done _ hbne, lastIdOf,
                List.getLast?_eq_getLast _ hbne]
              rfl
            have hsplit2 : upstream = (done ++ rest.take 100) ++ rest.drop 100 := by
              rw [hsplit, List.append_assoc, List.take_append_drop]
            have hfresh2 : ∀ m ∈ done ++ rest.take 100, w < m.timestamp := by
              intro m hm
              rcases List.mem_append.mp hm with h | h
              · exact hfresh m h
              · exact hallf m h
            have hbpos : 0 < (rest.take 100).length := List.length_pos.mpr hbne
            have hdvd2 : rest.drop 100 = [] ∨ 100 ∣ (done ++ rest.take 100).length := by
              by_cases hlen : rest.length ≤ 100
              · exact Or.inl (List.drop_eq_nil_of_le hlen)
              · refine Or.inr ?_
                rw [List.length_append, List.length_take,
                  Nat.min_eq_left (by omega)]
                exact Nat.dvd_add hdvd100 (Nat.dvd_refl 100)
            have hfuel2 : 500 - (done ++ rest.take 100).length < fuel := by
              rw [List.length_append]
              omega
            have hrec := ih (done ++ rest.take 100) (rest.drop 100) acc0 (pi + 1)
              hsplit2 hfresh2 hdvd2 hfuel2
            rw [List.length_append] at hrec
            rw [hfil, List.append_assoc, hlid, hrec]
            have hT : rest.takeWhile (fun m => w < m.timestamp)
                = rest.take 100 ++ (rest.drop 100).takeWhile (fun m => w < m.timestamp) := by
              conv_lhs => rw [← List.take_append_drop 100 rest]
              rw [List.takeWhile_append_of_pos
                (fun a ha => decide_eq_true (hallf a ha))]
            have hlb : (rest.take 100).length ≤ 500 - done.length := by
              have := List.length_take_le 100 rest
              omega
            rw [hT, List.take_append_eq_append_take, List.take_of_length_le hlb]
            have harith : 500 - done.length - (rest.take 100).length
                = 500 - (done.length + (rest.take 100).length) := by omega
            rw [harith]
            simp [List.append_assoc]
      · rw [fetchLoop_succ, if_neg hcap]
        have h0 : 500 - done.length = 0 := by omega
        rw [h0, List.take_zero, List.append_nil]

/-- The spec's per-channel state invariant (§3): messages sorted newest
first, at most 500 stored, and the watermark equal to the maximum stored
timestamp (`0` if empty, as `maxTimestamp` computes). -/
def channelInvariant (c : ChannelIndex) : Prop :=
  TsSortedDesc c.messages ∧ c.messages.length ≤ 500 ∧
    c.latestTimestamp = maxTimestamp c.messages

theorem lastIdOf_nil : lastIdOf ([] : List Message) = none := rfl

/-- Evaluation of `indexChannel` on the success path over an already-indexed
channel: the loop fetches exactly the upstream messages above the stored
watermark (capped at 500), and the merge and classification run on
`stored ++ fetched`. -/
theorem indexChannel_success (st : IndexData) (ch : ChannelSrc) (c : ChannelIndex)
    (hex : lookupA st.channels ch.id = some c) (hnofail : ch.failAt = none)
    (hs : TsSortedDesc ch.upstream) (hnd : (ch.upstream.map Message.id).Nodup) :
    indexChannel st ch =
      (let fetched := (ch.upstream.takeWhile
        (fun m => c.latestTimestamp < m.timestamp)).take 500
       let messages := (sortByTsDesc (c.messages ++ fetched)).take 500
       { st with
         channels := setA st.channels ch.id
           { name := ch.name, messageCount := messages.length,
             latestTimestamp := maxTimestamp messages, messages := messages },
         bugs := st.bugs ++ classified bugKeywords ch.name messages,
         features := st.features ++ classified featureKeywords ch.name messages,
         solutions := st.solutions ++ classified solutionKeywords ch.name messages }) := by
  have hloop := fetchLoop_go ch.upstream c.latestTimestamp hs hnd 501 [] ch.upstream
    c.messages 0 rfl (by simp) (Or.inr (Nat.dvd_zero 100)) (by omega)
  rw [List.append_nil, lastIdOf_nil] at hloop
  simp only [List.length_nil, Nat.sub_zero] at hloop
  unfold indexChannel
  rw [hex, hnofail]
  simp only [hloop]
  rw [if_neg Bool.false_ne_true]

/-! ## Claim theorems for the crawler -/

/-- Claim C4: for a sorted upstream channel with unique message ids, the
error-free paging loop terminates exactly by the three stop conditions —
watermark hit (the page is truncated at the first message at or below the
previous watermark), empty page, or the 500-message cap — so its result is
precisely the fresh upstream prefix truncated at the cap, and no message at
or below the watermark is ever appended. -/
theorem claim4_paging_stops (upstream : List Message) (w : Nat)
    (hs : TsSortedDesc upstream) (hnd : (upstream.map Message.id).Nodup) :
    fetchLoop upstream none w 500 501 [] none 0 0
      = ((upstream.takeWhile (fun m => w < m.timestamp)).take 500, false) ∧
    ∀ m ∈ (fetchLoop upstream none w 500 501 [] none 0 0).fst,
      w < m.timestamp := by
  have h := fetchLoop_go upstream w hs hnd 501 [] upstream [] 0 rfl (by simp)
    (Or.inr (Nat.dvd_zero 100)) (by omega)
  rw [lastIdOf_nil] at h
  simp only [List.nil_append, List.length_nil, Nat.sub_zero] at h
  refine ⟨h, ?_⟩
  intro m hm
  rw [h] at hm
  have hm2 : m ∈ upstream.takeWhile (fun m => w < m.timestamp) :=
    List.mem_of_mem_take hm
  simpa using List.mem_takeWhile_imp hm2

/-- Claim C3: merging newly fetched messages with a well-formed stored list
(unique ids, watermark above every stored timestamp, upstream consistent
with the store) yields a stored list without duplicate identifiers; because
every fetched message lies strictly above the watermark, an id conflict
between old and new entries cannot arise at all. -/
theorem claim3_merge_dedup (st : IndexData) (ch : ChannelSrc) (c : ChannelIndex)
    (hex : lookupA st.channels ch.id = some c)
    (hnofail : ch.failAt = none)
    (hstored : (c.messages.map Message.id).Nodup)
    (hwm : ∀ m ∈ c.messages, m.timestamp ≤ c.latestTimestamp)
    (hs : TsSortedDesc ch.upstream)
    (hnd : (ch.upstream.map Message.id).Nodup)
    (hconsist : ∀ m ∈ c.messages, ∀ m2 ∈ ch.upstream, m.id = m2.id →
      m2.timestamp = m.timestamp) :
    ∀ c2, lookupA (indexChannel st ch).channels ch.id = some c2 →
      (c2.messages.map Message.id).Nodup := by
  intro c2 hc2
  rw [indexChannel_success st ch c hex hnofail hs hnd] at hc2
  simp only at hc2
  rw [lookupA_setA_self] at hc2
  injection hc2 with hc2
  subst hc2
  simp only
  set F := (ch.upstream.takeWhile
    (fun m => c.latestTimestamp < m.timestamp)).take 500 with hF
  have hFsub : List.Sublist F ch.upstream :=
    ((List.take_sublist _ _).trans (List.takeWhile_sublist _))
  have hMnodup : ((c.messages ++ F).map Message.id).Nodup := by
    rw [List.map_append, List.nodup_append]
    refine ⟨hstored, List.Nodup.sublist (hFsub.map Message.id) hnd, ?_⟩
    intro a ha hb
    obtain ⟨m, hm, rfl⟩ := List.mem_map.mp ha
    obtain ⟨m2, hm2, hid⟩ := List.mem_map.mp hb
    have hm2up : m2 ∈ ch.upstream := hFsub.mem hm2
    have hm2fresh : c.latestTimestamp < m2.timestamp := by
      have : m2 ∈ ch.upstream.takeWhile
          (fun m => c.latestTimestamp < m.timestamp) := List.mem_of_mem_take hm2
      simpa using List.mem_takeWhile_imp this
    have := hconsist m hm m2 hm2up hid.symm
    have := hwm m hm
    omega
  have hperm : List.Perm ((sortByTsDesc (c.messages ++ F)).map Message.id)
      ((c.messages ++ F).map Message.id) :=
    (sortByTsDesc_perm (c.messages ++ F)).map Message.id
  have hsortnodup : ((sortByTsDesc (c.messages ++ F)).map Message.id).Nodup :=
    (hperm.nodup_iff).mpr hMnodup
  have hsub2 : List.Sublist (((sortByTsDesc (c.messages ++ F)).take 500).map Message.id)
      ((sortByTsDesc (c.messages ++ F)).map Message.id) :=
    (List.take_sublist _ _).map Message.id
  exact List.Nodup.sublist hsub2 hsortnodup

/-- Claim C1 (amended): re-indexing an already-indexed channel whose
upstream holds no message above the stored watermark leaves the channel map
— message list and watermark — unchanged, but appends a fresh copy of every
matching classified record to the bug/feature/solution collections
(`analyzeMessages` re-classifies all stored messages on every run). -/
theorem claim1_amended (st : IndexData) (ch : ChannelSrc) (c : ChannelIndex)
    (hex : lookupA st.channels ch.id = some c)
    (hnofail : ch.failAt = none)
    (hname : c.name = ch.name)
    (hsorted : TsSortedDesc c.messages)
    (hlen : c.messages.length ≤ 500)
    (hwm : c.latestTimestamp = maxTimestamp c.messages)
    (hcount : c.messageCount = c.messages.length)
    (hstale : ∀ m ∈ ch.upstream, m.timestamp ≤ c.latestTimestamp) :
    indexChannel st ch =
      { st with
        bugs := st.bugs ++ classified bugKeywords ch.name c.messages,
        features := st.features ++ classified featureKeywords ch.name c.messages,
        solutions := st.solutions ++ classified solutionKeywords ch.name c.messages } := by
  have hloop := fetchLoop_no_new ch.upstream c.latestTimestamp 500 c.messages hstale
  unfold indexChannel
  rw [hex, hnofail, show (501 : Nat) = 500 + 1 from rfl]
  simp only [hloop]
  rw [if_neg Bool.false_ne_true]
  rw [sortByTsDesc_eq_self hsorted, List.take_of_length_le hlen]
  have hc : ({ name := ch.name, messageCount := c.messages.length,
                latestTimestamp := maxTimestamp c.messages,
                messages := c.messages } : ChannelIndex) = c := by
    obtain ⟨n, mc, lt, ms⟩ := c
    simp only at hname hwm hcount
    rw [hname, hwm, hcount]
  rw [hc, setA_lookup_eq st.channels ch.id c hex]

/-! Concrete fixtures for the counterexamples and witnesses. -/

def userAlice : Author := { id := "u1", username := "alice", bot := false }

def msgBug : Message :=
  { id := "m1", content := "bug: app crashes on launch", author := userAlice,
    timestamp := 100, hasAttachments := false, reactions := [] }

def srcSupport : ChannelSrc :=
  { id := "c1", name := "support", upstream := [msgBug], failAt := none }

/-- State after the first indexing run of `srcSupport` from scratch. -/
def stRun1 : IndexData := indexChannel emptyIndexData srcSupport

/-- State after re-running the same indexing with no new upstream messages. -/
def stRun2 : IndexData := indexChannel stRun1 srcSupport

/-- Claim C1 fails as stated: a second run over an unchanged channel (every
upstream timestamp at or below the stored watermark) leaves the per-channel
data unchanged but duplicates the classified bug record, so the snapshot is
not unchanged. -/
theorem claim1_counterexample :
    lookupA stRun1.channels "c1"
      = some { name := "support", messageCount := 1, latestTimestamp := 100,
               messages := [msgBug] } ∧
    (∀ m ∈ srcSupport.upstream, m.timestamp ≤ 100) ∧
    stRun2.channels = stRun1.channels ∧
    stRun1.bugs.length = 1 ∧ stRun2.bugs.length = 2 ∧
    stRun2.bugs ≠ stRun1.bugs := by
  refine ⟨by decide, by decide, by decide, by decide, by decide, by decide⟩

/-- Witness for the amended claim C1 at the concrete first-run state. -/
theorem claim1_witness :
    lookupA stRun1.channels srcSupport.id
      = some { name := "support", messageCount := 1, latestTimestamp := 100,
               messages := [msgBug] } ∧
    indexChannel stRun1 srcSupport =
      { stRun1 with
        bugs := stRun1.bugs ++ classified bugKeywords srcSupport.name [msgBug],
        features := stRun1.features
          ++ classified featureKeywords srcSupport.name [msgBug],
        solutions := stRun1.solutions
          ++ classified solutionKeywords srcSupport.name [msgBug] } :=
  ⟨by decide,
    claim1_amended stRun1 srcSupport
      { name := "support", messageCount := 1, latestTimestamp := 100,
        messages := [msgBug] }
      (by decide) rfl (by decide) (by decide) (by decide) (by decide) (by decide)
      (by decide)⟩

/-! ## Claim C2: the state invariant is broken by the failure path -/

def msgOld : Message :=
  { id := "a", content := "hello", author := userAlice, timestamp := 100,
    hasAttachments := false, reactions := [] }

def msgNew : Message :=
  { id := "b", content := "hi again", author := userAlice, timestamp := 200,
    hasAttachments := false, reactions := [] }

/-- A snapshot with one well-formed indexed channel (`msgOld`, watermark
100). -/
def stPre : IndexData :=
  { emptyIndexData with
    channels := [("c2", { name := "general", messageCount := 1,
                          latestTimestamp := 100, messages := [msgOld] })] }

/-- The same channel upstream now holds one newer message (the old one was
deleted upstream), and the second page request fails. -/
def srcFail : ChannelSrc :=
  { id := "c2", name := "general", upstream := [msgNew], failAt := some 1 }

/-- Claim C2 fails on the code's failure path: after the first page pushed
`msgNew` into the aliased stored array, the failing second fetch leaves the
entry with messages `[msgOld, msgNew]` — not sorted newest-first, with the
stale watermark 100 ≠ 200 and stale count — violating the state
invariant. -/
theorem claim2_invariant_broken :
    lookupA (indexChannel stPre srcFail).channels "c2"
      = some { name := "general", messageCount := 1, latestTimestamp := 100,
               messages := [msgOld, msgNew] } ∧
    ¬ channelInvariant
      { name := "general", messageCount := 1, latestTimestamp := 100,
        messages := [msgOld, msgNew] } := by
  refine ⟨by decide, ?_⟩
  intro h
  exact absurd h.2.2 (by decide)

/-- The channel of `stPre`, seen with one new upstream message on top of
the already-indexed one (an overlapping batch). -/
def srcBoth : ChannelSrc :=
  { id := "c2", name := "general", upstream := [msgNew, msgOld], failAt := none }

/-- Witness for claim C3 at a concrete overlapping merge. -/
theorem claim3_witness :
    lookupA stPre.channels srcBoth.id
      = some { name := "general", messageCount := 1, latestTimestamp := 100,
               messages := [msgOld] } ∧
    srcBoth.failAt = none ∧
    ([msgOld].map Message.id).Nodup ∧
    (∀ m ∈ [msgOld], m.timestamp ≤ 100) ∧
    TsSortedDesc srcBoth.upstream ∧
    ((srcBoth.upstream.map Message.id).Nodup) ∧
    (∀ m ∈ [msgOld], ∀ m2 ∈ srcBoth.upstream, m.id = m2.id →
      m2.timestamp = m.timestamp) ∧
    (∀ c2, lookupA (indexChannel stPre srcBoth).channels srcBoth.id = some c2 →
      (c2.messages.map Message.id).Nodup) :=
  ⟨by decide, rfl, by decide, by decide, by decide, by decide, by decide,
    claim3_merge_dedup stPre srcBoth
      { name := "general", messageCount := 1, latestTimestamp := 100,
        messages := [msgOld] }
      (by decide) rfl (by decide) (by decide) (by decide) (by decide) (by decide)⟩

/-! ## Claim C9: fetch failures are isolated -/

/-- A fetch that rejects on the very first page request terminates the loop
with the error flag and nothing appended. -/
theorem fetchLoop_fail_first (u : List Message) (w : Nat) (acc : List Message) :
    fetchLoop u (some 0) w 500 (500 + 1) acc none 0 0 = (acc, true) := by
  rw [fetchLoop_succ, if_pos (by omega), if_pos rfl]

/-- A channel whose very first fetch fails is skipped without any state
change, and the server run continues over the remaining channels exactly as
if the failed channel were absent. -/
theorem indexChannel_first_page_skip (st : IndexData) (ch : ChannelSrc)
    (rest : List ChannelSrc) (now : Nat) (h : ch.failAt = some 0) :
    indexChannel st ch = st ∧
    indexServer st (ch :: rest) now = indexServer st rest now := by
  have h1 : indexChannel st ch = st := by
    cases hex : lookupA st.channels ch.id with
    | none =>
        unfold indexChannel
        rw [hex, h, show (501 : Nat) = 500 + 1 from rfl]
        simp only [fetchLoop_fail_first]
        rw [if_pos trivial]
    | some c =>
        unfold indexChannel
        rw [hex, h, show (501 : Nat) = 500 + 1 from rfl]
        simp only [fetchLoop_fail_first]
        rw [if_pos trivial]
        rw [show ({ name := c.name, messageCount := c.messageCount,
                    latestTimestamp := c.latestTimestamp,
                    messages := c.messages } : ChannelIndex) = c from rfl]
        rw [setA_lookup_eq st.channels ch.id c hex]
  refine ⟨h1, ?_⟩
  unfold indexServer
  rw [List.foldl_cons, h1]

def srcFailFirst : ChannelSrc :=
  { id := "c2", name := "general", upstream := [msgNew], failAt := some 0 }

/-- The paging loop only ever appends to its accumulator: whatever state it
stops in (error or not), the initial contents are still a prefix of the
result. -/
theorem fetchLoop_acc_extends (u : List Message) (f : Option Nat) (w mx : Nat) :
    ∀ (fuel : Nat) (acc : List Message) (lid : Option String) (fc pi : Nat),
      ∃ tail, (fetchLoop u f w mx fuel acc lid fc pi).fst = acc ++ tail := by
  intro fuel
  induction fuel with
  | zero =>
      intro acc lid fc pi
      exact ⟨[], (List.append_nil acc).symm⟩
  | succ fuel ih =>
      intro acc lid fc pi
      rw [fetchLoop_succ]
      by_cases h1 : fc < mx
      · rw [if_pos h1]
        by_cases h2 : f = some pi
        · rw [if_pos h2]
          exact ⟨[], (List.append_nil acc).symm⟩
        · rw [if_neg h2]
          by_cases h3 : fetchPage u lid 100 = []
          · rw [dif_pos h3]
            exact ⟨[], (List.append_nil acc).symm⟩
          · rw [dif_neg h3]
            by_cases h4 : ((fetchPage u lid 100).any (fun m => m.timestamp ≤ w)) = true
            · rw [if_pos h4]
              exact ⟨_, rfl⟩
            · rw [if_neg h4]
              obtain ⟨tail, htail⟩ := ih
                (acc ++ (fetchPage u lid 100).filter (fun m => w < m.timestamp))
                (some ((fetchPage u lid 100).getLast h3).id)
                (fc + (fetchPage u lid 100).length) (pi + 1)
              exact ⟨_, by rw [htail, List.append_assoc]⟩
      · rw [if_neg h1]
        exact ⟨[], (List.append_nil acc).symm⟩

/-- The outcome of the paging phase of `indexChannel` for a channel: the
final contents of the `messages` accumulator and the error flag (identical
to the `res` computed inside `indexChannel`). -/
def channelFetchResult (st : IndexData) (ch : ChannelSrc) : List Message × Bool :=
  let existing := lookupA st.channels ch.id
  let watermark := match existing with | some c => c.latestTimestamp | none => 0
  let stored := match existing with | some c => c.messages | none => []
  fetchLoop ch.upstream ch.failAt watermark 500 501 stored none 0 0

/-- Indexing one channel never touches any other channel's entry, on the
success path and on every error path alike. -/
theorem indexChannel_other_channels (st : IndexData) (ch : ChannelSrc)
    (cid : String) (h : cid ≠ ch.id) :
    lookupA (indexChannel st ch).channels cid = lookupA st.channels cid := by
  cases hex : lookupA st.channels ch.id with
  | none =>
      simp only [indexChannel, hex]
      split
      · rfl
      · exact lookupA_setA_ne _ _ _ _ (Ne.symm h)
  | some c =>
      simp only [indexChannel, hex]
      split
      · exact lookupA_setA_ne _ _ _ _ (Ne.symm h)
      · exact lookupA_setA_ne _ _ _ _ (Ne.symm h)

/-- Claim C9 fails as stated: a fetch error after one successful page does
not skip the channel — the entry of `stPre`'s channel changes (the
partially fetched message stays appended in place, per the aliased
array). -/
theorem claim9_counterexample :
    srcFail.failAt = some 1 ∧
    indexChannel stPre srcFail ≠ stPre ∧
    lookupA (indexChannel stPre srcFail).channels "c2"
      ≠ lookupA stPre.channels "c2" :=
  ⟨rfl, by decide, by decide⟩

/-- Claim C9 (amended): any fetch error while indexing a channel is caught
— no exception propagates and the server run continues over the sibling
channels from the post-channel state; sibling entries are never touched.
A channel failing on its very first page request is skipped with no state
change at all.  An error after at least one successful page is confined to
the failing channel but does not cleanly skip it: the classified
collections, `lastIndexed` and every other channel are unchanged, a channel
without a prior entry is skipped entirely, and a channel with a prior entry
keeps its stale metadata while the messages fetched so far remain appended
in place to its stored list. -/
theorem claim9_amended (st : IndexData) (ch : ChannelSrc)
    (rest : List ChannelSrc) (now : Nat) :
    indexServer st (ch :: rest) now = indexServer (indexChannel st ch) rest now ∧
    (∀ cid, cid ≠ ch.id →
      lookupA (indexChannel st ch).channels cid = lookupA st.channels cid) ∧
    (ch.failAt = some 0 →
      indexChannel st ch = st ∧
      indexServer st (ch :: rest) now = indexServer st rest now) ∧
    ((channelFetchResult st ch).snd = true →
      (indexChannel st ch).bugs = st.bugs ∧
      (indexChannel st ch).features = st.features ∧
      (indexChannel st ch).solutions = st.solutions ∧
      (indexChannel st ch).commonIssues = st.commonIssues ∧
      (indexChannel st ch).lastIndexed = st.lastIndexed ∧
      (lookupA st.channels ch.id = none → indexChannel st ch = st) ∧
      (∀ c, lookupA st.channels ch.id = some c →
        ∃ fetched, (channelFetchResult st ch).fst = c.messages ++ fetched ∧
          indexChannel st ch
            = { st with
                channels := setA st.channels ch.id
                    { c with messages := c.messages ++ fetched } })) := by
  refine ⟨rfl, ?_, ?_, ?_⟩
  · intro cid hcid
    exact indexChannel_other_channels st ch cid hcid
  · intro h0
    exact indexChannel_first_page_skip st ch rest now h0
  · intro herr
    cases hex : lookupA st.channels ch.id with
    | none =>
        simp only [channelFetchResult, hex] at herr
        have hch : indexChannel st ch = st := by
          simp only [indexChannel, hex]
          rw [if_pos herr]
        rw [hch]
        refine ⟨rfl, rfl, rfl, rfl, rfl, fun _ => rfl, ?_⟩
        intro c hc
        exact Option.noConfusion hc
    | some c0 =>
        simp only [channelFetchResult, hex] at herr
        have hch : indexChannel st ch
            = { st with
                channels := setA st.channels ch.id
                    { c0 with
                      messages := (fetchLoop ch.upstream ch.failAt
                        c0.latestTimestamp 500 501 c0.messages none 0 0).fst } } := by
          simp only [indexChannel, hex]
          rw [if_pos herr]
        obtain ⟨fetched, hfetched⟩ := fetchLoop_acc_extends ch.upstream ch.failAt
          c0.latestTimestamp 500 501 c0.messages none 0 0
        refine ⟨by rw [hch], by rw [hch], by rw [hch], by rw [hch], by rw [hch],
          ?_, ?_⟩
        · intro hnone
          exact Option.noConfusion hnone
        · intro c hc
          injection hc with hc
          subst hc
          refine ⟨fetched, ?_, ?_⟩
          · simp only [channelFetchResult, hex]
            exact hfetched
          · rw [hch, hfetched]

/-- The channel entry stored for `srcFail`'s channel in `stPre`. -/
def cPre : ChannelIndex :=
  { name := "general", messageCount := 1, latestTimestamp := 100,
    messages := [msgOld] }

/-- Witness for the amended claim C9, exercising both a first-page failure
(channel skipped outright) and a mid-run failure (error confined, entry
partially mutated in place). -/
theorem claim9_amended_witness :
    (srcFailFirst.failAt = some 0 ∧ indexChannel stPre srcFailFirst = stPre) ∧
    ((channelFetchResult stPre srcFail).snd = true ∧
      (indexChannel stPre srcFail).bugs = stPre.bugs ∧
      lookupA (indexChannel stPre srcFail).channels "other"
        = lookupA stPre.channels "other" ∧
      lookupA stPre.channels srcFail.id = some cPre ∧
      ∃ fetched, (channelFetchResult stPre srcFail).fst = cPre.messages ++ fetched ∧
        indexChannel stPre srcFail
          = { stPre with
              channels := setA stPre.channels srcFail.id
                  { cPre with messages := cPre.messages ++ fetched } }) :=
  ⟨⟨rfl, ((claim9_amended stPre srcFailFirst [] 7).2.2.1 rfl).1⟩,
   ⟨by decide,
    ((claim9_amended stPre srcFail [] 7).2.2.2 (by decide)).1,
    (claim9_amended stPre srcFail [] 7).2.1 "other" (by decide),
    by decide,
    ((claim9_amended stPre srcFail [] 7).2.2.2 (by decide)).2.2.2.2.2.2 cPre
      (by decide)⟩⟩

def msgTop : Message :=
  { id := "x2", content := "hello world", author := userAlice,
    timestamp := 200, hasAttachments := false, reactions := [] }

def msgBottom : Message :=
  { id := "x1", content := "older message", author := userAlice,
    timestamp := 100, hasAttachments := false, reactions := [] }

/-- Witness for claim C4 on a concrete two-message channel with watermark
150: only the newer message is fetched. -/
theorem claim4_witness :
    TsSortedDesc [msgTop, msgBottom] ∧
    (([msgTop, msgBottom].map Message.id).Nodup) ∧
    (fetchLoop [msgTop, msgBottom] none 150 500 501 [] none 0 0
        = (([msgTop, msgBottom].takeWhile
            (fun m => 150 < m.timestamp)).take 500, false) ∧
      ∀ m ∈ (fetchLoop [msgTop, msgBottom] none 150 500 501 [] none 0 0).fst,
        150 < m.timestamp) :=
  ⟨by decide, by decide,
    claim4_paging_stops [msgTop, msgBottom] 150 (by decide) (by decide)⟩

/-! ## Claim C7: load failure falls back without raising -/

/-- Claim C7: a failed load (missing file or malformed content, the `none`
outcome of read-and-parse) returns the explicit absent result and leaves the
caller's snapshot unchanged; in particular a fresh indexer keeps the empty
default snapshot. -/
theorem claim7_load_failure (st : IndexData) :
    loadIndexData st none = (none, st) ∧
    loadIndexData emptyIndexData none = (none, emptyIndexData) :=
  ⟨rfl, rfl⟩

/-! ## Claim C8: relative-time formatting -/

theorem plural_suffix_eq {n : Nat} (h : 1 ≤ n) :
    (if n > 1 then "s" else "") = (if n = 1 then "" else "s") := by
  by_cases h1 : n = 1
  · subst h1
    rfl
  · rw [if_neg h1, if_pos (by omega)]

/-- Claim C8 fails as stated at elapsed `0` ms: no unit among days, hours,
minutes, seconds is non-zero there, and the code emits the singular
"0 second ago" where English pluralisation ("0 seconds ago", as
`relTimeSpec` renders it) would be correct. -/
theorem claim8_counterexample :
    getRelativeTime 0 0 = "0 second ago" ∧ relTimeSpec 0 = "0 seconds ago" ∧
    getRelativeTime 0 0 ≠ relTimeSpec 0 :=
  ⟨by decide, by decide, by decide⟩

/-- Claim C8 (amended): for every elapsed time of at least one second the
string uses the largest non-zero unit among days, hours, minutes, seconds
with the correct singular/plural suffix (exactly the spec rendering
`relTimeSpec`); below one second the output is the singular "0 second ago".
The two examples of the claim hold. -/
theorem claim8_amended (now ts : Nat) (h : 1000 ≤ now - ts) :
    getRelativeTime now ts = relTimeSpec (now - ts) ∧
    (∀ n2 t2 : Nat, n2 - t2 < 1000 → getRelativeTime n2 t2 = "0 second ago") ∧
    getRelativeTime 3661000 0 = "1 hour ago" ∧
    getRelativeTime 45000 0 = "45 seconds ago" := by
  refine ⟨?_, ?_, by decide, by decide⟩
  · have hs : 1 ≤ (now - ts) / 1000 := (Nat.one_le_div_iff (by omega)).mpr h
    simp only [getRelativeTime, relTimeSpec, unitPhrase]
    by_cases hd : (now - ts) / 1000 / 60 / 60 / 24 > 0
    · rw [if_pos hd, if_pos hd, plural_suffix_eq hd]
    · rw [if_neg hd, if_neg hd]
      by_cases hh : (now - ts) / 1000 / 60 / 60 > 0
      · rw [if_pos hh, if_pos hh, plural_suffix_eq hh]
      · rw [if_neg hh, if_neg hh]
        by_cases hm : (now - ts) / 1000 / 60 > 0
        · rw [if_pos hm, if_pos hm, plural_suffix_eq hm]
        · rw [if_neg hm, if_neg hm, plural_suffix_eq hs]
  · intro n2 t2 h2
    have hz : (n2 - t2) / 1000 = 0 := Nat.div_eq_of_lt h2
    simp only [getRelativeTime, hz]
    rfl

/-- Witness for the amended claim C8 at the claim's own example input. -/
theorem claim8_witness :
    1000 ≤ 3661000 - 0 ∧
    (getRelativeTime 3661000 0 = relTimeSpec (3661000 - 0) ∧
      (∀ n2 t2 : Nat, n2 - t2 < 1000 → getRelativeTime n2 t2 = "0 second ago") ∧
      getRelativeTime 3661000 0 = "1 hour ago" ∧
      getRelativeTime 45000 0 = "45 seconds ago") :=
  ⟨by decide, claim8_amended 3661000 0 (by decide)⟩

/-! ## Claim C10: reading an absent user's history -/

/-- Claim C10: `getHistory` for a user with no stored entry returns the
empty sequence without failing and leaves the conversation-memory map
unchanged (no entry is created). -/
theorem claim10_get_absent (m : ConvHistory) (now : Nat) (uid : String)
    (h : lookupA m uid = none) :
    getHistory m now uid = ([], m) := by
  unfold getHistory
  rw [h]
  rfl

def convTurnHi : ConversationTurn := { role := "user", text := "hi", timestamp := 0 }

def convOneUser : ConvHistory := [("other", [convTurnHi])]

/-- Witness for claim C10 on a map holding only a different user. -/
theorem claim10_witness :
    lookupA convOneUser "nobody" = none ∧
    getHistory convOneUser 5 "nobody" = ([], convOneUser) :=
  ⟨by decide, claim10_get_absent convOneUser 5 "nobody" (by decide)⟩

/-! ## Claims C5 and C6: conversation-memory bounds and isolation -/

/-- The cap applied by `addToHistory` always equals "keep the last 20". -/
theorem capDrop (l : List ConversationTurn) :
    (if l.length > 20 then l.drop (l.length - 20) else l)
      = l.drop (l.length - 20) := by
  by_cases h : l.length > 20
  · rw [if_pos h]
  · rw [if_neg h, show l.length - 20 = 0 by omega, List.drop_zero]

/-- Keeping the last `n` elements twice is the same as keeping them once at
the end. -/
theorem drop_last_append {α : Type} (n : Nat) (X Y : List α) :
    (X.drop (X.length - n) ++ Y).drop ((X.drop (X.length - n) ++ Y).length - n)
      = (X ++ Y).drop ((X ++ Y).length - n) := by
  by_cases h : X.length ≤ n
  · rw [show X.length - n = 0 by omega, List.drop_zero]
  · have hk : X.length - n ≤ X.length := Nat.sub_le _ _
    rw [← List.drop_append_of_le_length hk, List.drop_drop]
    congr 1
    simp only [List.length_drop, List.length_append]
    omega

/-- Effect of `addToHistory` on the user's own entry when every stored turn
is still fresh: the new turn is appended and the list capped to the most
recent 20. -/
theorem addToHistory_self (m : ConvHistory) (now : Nat) (uid role content : String)
    (hist : List ConversationTurn)
    (hh : (lookupA m uid).getD [] = hist)
    (hfresh : ∀ x ∈ hist, freshTurn now x = true) :
    lookupA (addToHistory m now uid role content) uid
      = some ((hist ++ [(⟨role, content, now⟩ : ConversationTurn)]).drop
          ((hist ++ [(⟨role, content, now⟩ : ConversationTurn)]).length - 20)) := by
  simp only [addToHistory]
  have hm0 : (lookupA (if (lookupA m uid).isSome then m else setA m uid []) uid).getD []
      = hist := by
    by_cases hm : (lookupA m uid).isSome
    · rw [if_pos hm]
      exact hh
    · rw [if_neg hm, lookupA_setA_self]
      have hnone : lookupA m uid = none := by
        cases hl : lookupA m uid with
        | none => rfl
        | some v => rw [hl] at hm; simp at hm
      rw [hnone] at hh
      simpa using hh
  rw [lookupA_setA_self, hm0]
  have hfil : (hist ++ [(⟨role, content, now⟩ : ConversationTurn)]).filter (freshTurn now)
      = hist ++ [⟨role, content, now⟩] := by
    rw [List.filter_eq_self]
    intro a ha
    rcases List.mem_append.mp ha with h1 | h1
    · exact hfresh a h1
    · rw [List.mem_singleton] at h1
      subst h1
      simp [freshTurn]
  rw [hfil, capDrop]

/-- Adding a list of `(role, text)` turns one after the other at time
`now`. -/
def addMany (m : ConvHistory) (now : Nat) (uid : String)
    (l : List (String × String)) : ConvHistory :=
  l.foldl (fun acc p => addToHistory acc now uid p.fst p.snd) m

/-- The turn produced when `(role, text)` is added at time `now`. -/
def mkTurn (now : Nat) (p : String × String) : ConversationTurn :=
  { role := p.fst, text := p.snd, timestamp := now }

theorem addMany_go (now : Nat) (uid : String) :
    ∀ (l : List (String × String)) (m : ConvHistory) (hist : List ConversationTurn),
      (lookupA m uid).getD [] = hist →
      (∀ x ∈ hist, freshTurn now x = true) →
      hist.length ≤ 20 →
      (lookupA (addMany m now uid l) uid).getD []
        = (hist ++ l.map (mkTurn now)).drop
            ((hist ++ l.map (mkTurn now)).length - 20) := by
  intro l
  induction l with
  | nil =>
      intro m hist hh hfresh hlen
      simp only [addMany, List.foldl_nil, List.map_nil, List.append_nil]
      rw [hh, show hist.length - 20 = 0 by omega, List.drop_zero]
  | cons p rest ih =>
      intro m hist hh hfresh hlen
      have hstep := addToHistory_self m now uid p.fst p.snd hist hh hfresh
      have hh2 : (lookupA (addToHistory m now uid p.fst p.snd) uid).getD []
          = (hist ++ [(⟨p.fst, p.snd, now⟩ : ConversationTurn)]).drop
              ((hist ++ [(⟨p.fst, p.snd, now⟩ : ConversationTurn)]).length - 20) := by
        rw [hstep]
        rfl
      have hfresh2 : ∀ x ∈ (hist ++ [(⟨p.fst, p.snd, now⟩ : ConversationTurn)]).drop
          ((hist ++ [(⟨p.fst, p.snd, now⟩ : ConversationTurn)]).length - 20),
          freshTurn now x = true := by
        intro x hx
        have hx2 := List.mem_of_mem_drop hx
        rcases List.mem_append.mp hx2 with h1 | h1
        · exact hfresh x h1
        · rw [List.mem_singleton] at h1
          subst h1
          simp [freshTurn]
      have hlen2 : ((hist ++ [(⟨p.fst, p.snd, now⟩ : ConversationTurn)]).drop
          ((hist ++ [(⟨p.fst, p.snd, now⟩ : ConversationTurn)]).length - 20)).length
            ≤ 20 := by
        rw [List.length_drop]
        omega
      have hrec := ih (addToHistory m now uid p.fst p.snd) _ hh2 hfresh2 hlen2
      show (lookupA (addMany (addToHistory m now uid p.fst p.snd) now uid rest) uid).getD []
        = _
      rw [hrec, drop_last_append, List.append_assoc]
      rfl

/-- Claim C5: (i) adding 21 turns at one instant for a user starting from
empty memory retains exactly the 20 most recent turns; (ii) every pair a
read returns comes from a stored turn whose age is within the TTL, so older
turns are absent from the read; (iii) in particular, one turn added and
read again after the TTL has passed yields the empty sequence. -/
theorem claim5_memory_bound :
    (∀ (l : List (String × String)) (now : Nat) (uid : String),
      l.length = 21 →
      (lookupA (addMany [] now uid l) uid).getD []
        = (l.map (mkTurn now)).drop 1) ∧
    (∀ (m : ConvHistory) (now : Nat) (uid : String) (pr : String × String),
      pr ∈ (getHistory m now uid).fst →
      ∃ h, h ∈ (lookupA m uid).getD [] ∧ now - h.timestamp ≤ historyTTLms ∧
        pr = (h.role, h.text)) ∧
    (∀ (t tr : Nat) (uid role text : String), historyTTLms < tr - t →
      (getHistory (addToHistory [] t uid role text) tr uid).fst = []) := by
  refine ⟨?_, ?_, ?_⟩
  · intro l now uid hlen
    have h := addMany_go now uid l [] [] rfl (by simp) (by simp)
    rw [h, List.nil_append, List.length_map, hlen]
  · intro m now uid pr hpr
    simp only [getHistory, List.mem_map] at hpr
    obtain ⟨h, hh, hpr⟩ := hpr
    rw [List.mem_filter] at hh
    refine ⟨h, hh.1, ?_, hpr.symm⟩
    simpa [freshTurn] using hh.2
  · intro t tr uid role text htl
    have hone : lookupA (addToHistory [] t uid role text) uid
        = some [(⟨role, text, t⟩ : ConversationTurn)] := by
      have h := addToHistory_self [] t uid role text [] rfl (by simp)
      simpa using h
    have hstale : freshTurn tr (⟨role, text, t⟩ : ConversationTurn) = false := by
      simp only [freshTurn, decide_eq_false_iff_not]
      exact Nat.not_le.mpr htl
    simp only [getHistory, hone]
    simp [hstale]

/-- Witness for claim C5: 21 identical turns keep the last 20; a fresh turn
is readable; a turn read after the TTL has elapsed is gone. -/
theorem claim5_witness :
    ((List.replicate 21 (("user", "hi") : String × String)).length = 21 ∧
      (lookupA (addMany [] 3 "u" (List.replicate 21 ("user", "hi"))) "u").getD []
        = ((List.replicate 21 (("user", "hi") : String × String)).map (mkTurn 3)).drop 1) ∧
    ((("user", "hi") : String × String) ∈ (getHistory convOneUser 5 "other").fst ∧
      ∃ h, h ∈ (lookupA convOneUser "other").getD [] ∧
        5 - h.timestamp ≤ historyTTLms ∧
        (("user", "hi") : String × String) = (h.role, h.text)) ∧
    (historyTTLms < 2000000 - 0 ∧
      (getHistory (addToHistory [] 0 "u" "user" "hi") 2000000 "u").fst = []) :=
  ⟨⟨by decide, claim5_memory_bound.1 (List.replicate 21 ("user", "hi")) 3 "u" (by decide)⟩,
   ⟨by decide, claim5_memory_bound.2.1 convOneUser 5 "other" ("user", "hi") (by decide)⟩,
   ⟨by decide, claim5_memory_bound.2.2 0 2000000 "u" "user" "hi" (by decide)⟩⟩

/-- One operation for user `A` never touches `B`'s entry. -/
theorem applyOp_other (m : ConvHistory) (now : Nat) (A B : String) (hAB : A ≠ B) :
    ∀ op : UserOp, lookupA (applyOp m now A op) B = lookupA m B := by
  intro op
  cases op with
  | add r x =>
      show lookupA (addToHistory m now A r x) B = lookupA m B
      simp only [addToHistory]
      rw [lookupA_setA_ne _ A B _ hAB]
      by_cases hm : (lookupA m A).isSome = true
      · rw [if_pos hm]
      · rw [if_neg hm, lookupA_setA_ne _ A B _ hAB]
  | get =>
      show lookupA ((getHistory m now A).snd) B = lookupA m B
      simp only [getHistory]
      by_cases hc : (((lookupA m A).getD []).filter (freshTurn now)).length
          ≠ ((lookupA m A).getD []).length
      · rw [if_pos hc, lookupA_setA_ne _ A B _ hAB]
      · rw [if_neg hc]
  | clear =>
      exact lookupA_delA_ne m A B hAB

theorem applyOps_other (A B : String) (hAB : A ≠ B) :
    ∀ (ops : List (Nat × UserOp)) (m : ConvHistory),
      lookupA (applyOps m A ops) B = lookupA m B := by
  intro ops
  induction ops with
  | nil => intro m; rfl
  | cons op rest ih =>
      intro m
      show lookupA (applyOps (applyOp m op.fst A op.snd) A rest) B = lookupA m B
      rw [ih, applyOp_other m op.fst A B hAB op.snd]

/-- The pairs returned by a read depend only on the read user's entry. -/
theorem getHistory_fst_of_lookup (m m2 : ConvHistory) (t : Nat) (B : String)
    (h : lookupA m B = lookupA m2 B) :
    (getHistory m t B).fst = (getHistory m2 t B).fst := by
  simp only [getHistory]
  rw [h]

/-- Claim C6: conversation memory is strictly partitioned by user
identifier — any sequence of add/get/clear operations for user A leaves
B's stored entry and the result of `get(B)` unchanged, and every pair
`get(B)` returns comes from B's own stored turns, so no turn added for A
ever appears there. -/
theorem claim6_isolation (m : ConvHistory) (A B : String) (hAB : A ≠ B)
    (ops : List (Nat × UserOp)) (t : Nat) :
    lookupA (applyOps m A ops) B = lookupA m B ∧
    (getHistory (applyOps m A ops) t B).fst = (getHistory m t B).fst ∧
    (∀ pr ∈ (getHistory (applyOps m A ops) t B).fst,
      ∃ h, h ∈ (lookupA m B).getD [] ∧ pr = (h.role, h.text)) := by
  have h1 := applyOps_other A B hAB ops m
  refine ⟨h1, getHistory_fst_of_lookup _ _ t B h1, ?_⟩
  intro pr hpr
  rw [getHistory_fst_of_lookup _ _ t B h1] at hpr
  simp only [getHistory, List.mem_map] at hpr
  obtain ⟨h, hh, hpr⟩ := hpr
  rw [List.mem_filter] at hh
  exact ⟨h, hh.1, hpr.symm⟩

def opsSecret : List (Nat × UserOp) :=
  [(1, UserOp.add "user" "secret"), (2, UserOp.get), (3, UserOp.clear)]

def convUserB : ConvHistory := [("b", [convTurnHi])]

/-- Witness for claim C6: adding, reading and clearing for user "a" leaves
user "b" untouched. -/
theorem claim6_witness :
    ("a" : String) ≠ "b" ∧
    (lookupA (applyOps convUserB "a" opsSecret) "b" = lookupA convUserB "b" ∧
      (getHistory (applyOps convUserB "a" opsSecret) 5 "b").fst
        = (getHistory convUserB 5 "b").fst ∧
      ∀ pr ∈ (getHistory (applyOps convUserB "a" opsSecret) 5 "b").fst,
        ∃ h, h ∈ (lookupA convUserB "b").getD [] ∧ pr = (h.role, h.text)) :=
  ⟨by decide, claim6_isolation convUserB "a" "b" (by decide) opsSecret 5⟩

end CAPSupport
